import Mathlib

/-! Shallow embedding of the ModelDAG random-sampling engine
(`modeldag/modeldag.py`) together with proofs about its model-document
handling, dependency closures, draw loop and function resolution.
Python dicts are embedded as ordered association lists, pandas series and
frames as lists of rows or columns, and the stochastic collaborators
(numpy sampling, `eval`, `np.random.choice`) as oracle parameters carried
in an environment record, so every definition stays executable. -/

/-- Python dict lookup `d[k]` / `d.get(k)` on an ordered association list. -/
def alistGet {α : Type} (l : List (String × α)) (k : String) : Option α :=
  match l with
  | [] => none
  | p :: rest => if p.1 = k then some p.2 else alistGet rest k

/-- Python dict assignment `d[k] = v`: overwrite the existing binding in
place, otherwise append the new key at the end (insertion order). -/
def alistSet {α : Type} (l : List (String × α)) (k : String) (v : α) : List (String × α) :=
  match l with
  | [] => [(k, v)]
  | p :: rest => if p.1 = k then (k, v) :: rest else p :: alistSet rest k v

/-- Python `{**a, **b}`: keys of `a` in order (values overridden by `b`
where present), then the new keys of `b` in order. -/
def dictMerge {α : Type} (a b : List (String × α)) : List (String × α) :=
  b.foldl (fun acc p => alistSet acc p.1 p.2) a

/-- A literal value appearing in an entry's `kwargs` (string or number). -/
inductive Val where
  | str (s : String)
  | int (z : Int)
deriving DecidableEq

/-- Python `s.split(sep)` for a one-character separator, on char lists:
keeps empty fields, never returns an empty list of fields. -/
def pysplit (sep : Char) : List Char → List (List Char)
  | [] => [[]]
  | c :: rest =>
    let ts := pysplit sep rest
    if c = sep then [] :: ts else (c :: ts.headD []) :: ts.tail

/-- Python `lst[-1]` on a split result. -/
def pyLast (l : List (List Char)) : List Char := l.getLastD []

/-- Python `lst[0]` on a split result. -/
def pyHead (l : List (List Char)) : List Char := l.headD []

/-- `v.split("@")[-1].split(" ")[0]`: the dependency name extracted from a
reference string (used at lines 262 and 447 of `modeldag.py`). -/
def refName (s : String) : String :=
  String.mk (pyHead (pysplit ' ' (pyLast (pysplit '@' s.toList))))

/-- `type(v) is str and "@" in v`: is a kwargs value a dependency
reference? -/
def isRef (v : Val) : Bool :=
  match v with
  | .str s => decide ('@' ∈ s.toList)
  | _ => false

/-- `refName` lifted to kwargs values (only ever used on references). -/
def refNameV (v : Val) : String :=
  match v with
  | .str s => refName s
  | _ => ""

/-- The reference grammar stated independently of `str.split`: the
characters after the last `@`, up to the first space character. -/
def specRefName (s : String) : String :=
  String.mk (((s.toList.reverse.takeWhile (fun c => c ≠ '@')).reverse).takeWhile (fun c => c ≠ ' '))

/-- Insert a string into a sorted list (ascending). -/
def sinsert (a : String) : List String → List String
  | [] => [a]
  | b :: bs => if a ≤ b then a :: b :: bs else b :: sinsert a bs

/-- Insertion sort on strings (ascending), as `np.unique` sorts. -/
def ssort : List String → List String
  | [] => []
  | a :: rest => sinsert a (ssort rest)

/-- Remove adjacent duplicates (on a sorted list this deduplicates). -/
def dedupAdj : List String → List String
  | [] => []
  | [a] => [a]
  | a :: b :: r => if a = b then dedupAdj (b :: r) else a :: dedupAdj (b :: r)

/-- `np.unique` on strings: sorted deduplicated values. -/
def npUnique (l : List String) : List String := dedupAdj (ssort l)

/-- What a sampling callable returns: one column of samples, a row-major
2-D array (one row per output alias), or an `(xx, pdf)` tuple from a
pdf-style callable. -/
inductive Samples where
  | one (col : List Val)
  | many (rows : List (List Val))
  | pairPdf (xx pdf : List Val)

/-- A value passed to a sampling callable when it is invoked: a literal
kwarg, a resolved dependency column (numpy array), Python `None`, an
integer size, or the resolved callable itself passed back under the
`func` keyword (kept opaque here). -/
inductive PyArg where
  | lit (v : Val)
  | arr (vs : List Val)
  | noneV
  | natV (n : Nat)
  | funcTok

/-- A sampling callable: its introspectable formal argument names
(`inspect.getfullargspec(func).args`; `none` when introspection fails,
e.g. for Cython functions) and its behaviour when invoked with keyword
arguments. -/
structure Callable where
  argspec : Option (List String)
  run : List (String × PyArg) → Except String Samples

/-- The `func` field of an entry: a direct callable or a string
specification resolved later by `_parse_input_func`. -/
inductive FuncSpec where
  | callable (c : Callable)
  | name (s : String)

/-- The `as` field of an entry when the key is present: Python `None`, a
single output name, or a list of output names. -/
inductive AliasField where
  | noneA
  | one (s : String)
  | many (ss : List String)
deriving DecidableEq

/-- One entry of the model document. `func` and `kwargs` are `none` when
the key is absent (the code reads them with `.get(-, None)` and
`.get(-, dict())` and treats an explicit `None` kwargs like an absent
one, line 441). For `as` the code distinguishes an absent key from an
explicit `None` (line 423 vs line 463), so `as_` keeps three states. -/
structure Entry where
  func : Option FuncSpec := none
  kwargs : Option (List (String × Val)) := none
  as_ : Option AliasField := none

/-- The ordered model document: `name -> entry` (Python dict order). -/
abbrev Model := List (String × Entry)

/-- The working draw table: one named column of realized values per
produced output, in insertion order. -/
abbrev Table := List (String × List Val)

/-- The ambient runtime the engine reflects on: the attribute tables of
the `ModelDAG` instance and of the attached owner object, Python `eval`
(`none` models an exception), `eval` of `np.r_` strings, and the
`np.random.choice` sampler used by `draw_from_pdf` (arguments: pdf, xx,
size). -/
structure Env where
  selfAttrs : List (String × Callable)
  objAttrs : List (String × Callable)
  evalFn : String → Option Callable
  rEval : String → List Val
  pdfChoice : List Val → List Val → PyArg → List Val

/-- The output name(s) an entry's samples are stored under in the draw
loop: `param_model.get("as", param_name)` followed by the explicit
`None` fix-up of lines 462-464. -/
inductive OutName where
  | single (s : String)
  | multi (ss : List String)
deriving DecidableEq

def outName (param_name : String) (e : Entry) : OutName :=
  match e.as_ with
  | none => .single param_name
  | some AliasField.noneA => .single param_name
  | some (AliasField.one s) => .single s
  | some (AliasField.many ss) => .multi ss

/-- The column labels of the `size == 0` short-circuit (line 423):
`np.hstack([v.get("as", name) for name, v in model.items()])`. An absent
`as` key falls back to the entry name, but a present `"as": None` stays
the Python `None` label (modelled as `Option.none`). -/
def size0cols (name : String) (e : Entry) : List (Option String) :=
  match e.as_ with
  | none => [some name]
  | some AliasField.noneA => [Option.none]
  | some (AliasField.one s) => [some s]
  | some (AliasField.many ss) => ss.map some

/-- Result of `_draw`: either the zero-row table of the `size == 0`
short-circuit (just its column labels) or the populated working table
together with the list of entry names whose sampling callable was
invoked, in invocation order. -/
inductive DrawOut where
  | emptyTab (cols : List (Option String))
  | tab (t : Table) (log : List String)

/-- The engine object: its only mutable state is the stored model
document `self.model`. Methods return their result together with the
state after the call. -/
structure ModelDAG where
  model : Model

/-- The exploded output names of the `modeldict_to_modeldf` frame: the
`as` value, with both an absent key and an explicit `None` filled with
the entry name (`fillna`, lines 13-20). -/
def outNamesDf (name : String) (e : Entry) : List String :=
  match e.as_ with
  | none => [name]
  | some AliasField.noneA => [name]
  | some (AliasField.one s) => [s]
  | some (AliasField.many ss) => ss

/-- The dependency names referenced from an entry's kwargs values, in
dict order (line 262). -/
def entryInputs (e : Entry) : List String :=
  (e.kwargs.getD []).filterMap (fun p => if isRef p.2 then some (refNameV p.2) else none)

/-- The rows of `get_modeldf()` after `.explode("entry").explode("input")`:
one `(output name, referenced name)` row per alias per reference, and a
`(output name, NaN)` row when an entry references nothing. -/
def entryRows (m : Model) : List (String × Option String) :=
  (m.map (fun p =>
    ((outNamesDf p.1 p.2).map (fun en =>
      match entryInputs p.2 with
      | [] => [(en, (none : Option String))]
      | ins => ins.map (fun i => (en, some i)))).flatten)).flatten

/-- `entry_dependencies.dropna()`: the `(consumer output, dependency)`
pairs of the exploded frame. -/
def depPairs (m : Model) : List (String × String) :=
  (entryRows m).filterMap (fun r => r.2.map (fun i => (r.1, i)))

/-- `entry_inputof`: the same non-NaN rows reindexed by the referenced
name, i.e. `(dependency, consumer output)` pairs. -/
def entry_inputof (m : Model) : List (String × String) :=
  (depPairs m).map Prod.swap

/-- One step of the frontier expansion of `get_backward_entries` /
`get_forward_entries`: keep the pairs whose index is in the current
frontier and take their values. -/
def frontier_step (edges : List (String × String)) (f : List String) : List String :=
  (edges.filter (fun e => f.contains e.1)).map Prod.snd

/-- The `while len(leads_to_changing) > 0` loop of both closure methods:
append the frontier values and re-filter, with enough fuel that it runs
to an empty frontier on every acyclic document. -/
def closure_loop (edges : List (String × String)) : Nat → List String → List String → List String
  | 0, acc, _ => acc
  | fuel + 1, acc, f =>
    if f.isEmpty then acc else closure_loop edges fuel (acc ++ f) (frontier_step edges f)

/-- `get_backward_entries(name, incl_input)` (lines 181-212), for a
string or list input (`np.atleast_1d`). -/
def get_backward_entries (m : Model) (names : List String) (incl_input : Bool) : List String :=
  let depends_on := depPairs m
  closure_loop depends_on (depends_on.length + 2)
    (if incl_input then names else []) (frontier_step depends_on names)

/-- `get_forward_entries(name, incl_input)` (lines 214-246). -/
def get_forward_entries (m : Model) (names : List String) (incl_input : Bool) : List String :=
  let inputs_of := entry_inputof m
  closure_loop inputs_of (inputs_of.length + 2)
    (if incl_input then names else []) (frontier_step inputs_of names)

/-- `get_model(funcs, **kwargs)` (lines 118-143): deep-copies the stored
document and shallow-merges each override mapping into the matching
entry's kwargs; a key that names no entry raises `KeyError`. The `funcs`
parameter is accepted but never read by the body. -/
def get_model_step (m : Model) (p : String × List (String × Val)) : Except String Model :=
  match alistGet m p.1 with
  | some e =>
      Except.ok (alistSet m p.1 { e with kwargs := some (dictMerge (e.kwargs.getD []) p.2) })
  | none => Except.error ("KeyError: " ++ p.1)

def get_model (model : Model) (funcs : List (String × FuncSpec))
    (kwargs : List (String × List (String × Val))) : Except String Model :=
  kwargs.foldlM get_model_step model

/-- `change_model(**kwargs)` (lines 145-154): `self.model =
self.get_model(**kwargs)`. The assignment happens only when `get_model`
returns; a raised `KeyError` leaves the stored document as it was. -/
def ModelDAG.change_model (dag : ModelDAG) (kwargs : List (String × List (String × Val))) :
    Except String Unit × ModelDAG :=
  match get_model dag.model [] kwargs with
  | Except.ok m => (Except.ok (), { model := m })
  | Except.error e => (Except.error e, dag)

/-- `get_model` as a method: it works on a deep copy (line 139), so the
stored document is returned untouched. -/
def ModelDAG.get_modelM (dag : ModelDAG) (funcs : List (String × FuncSpec))
    (kwargs : List (String × List (String × Val))) : Except String Model × ModelDAG :=
  (get_model dag.model funcs kwargs, dag)

/-- `_parse_input_func(name, func)` (lines 469-498): resolve a function
specification with the precedence callable, attribute of the instance,
attribute of the owner object, `draw_<name>` on the instance,
`draw_<name>` on the owner, `eval` of the string; otherwise raise a
`ValueError` naming the entry and the specification. -/
def specStr (func : Option FuncSpec) : String :=
  match func with
  | none => "None"
  | some (FuncSpec.name s) => s
  | some (FuncSpec.callable _) => "<callable>"

def _parse_input_func (env : Env) (name : String) (func : Option FuncSpec) :
    Except String Callable :=
  match func with
  | some (FuncSpec.callable c) => Except.ok c
  | other =>
    let s? : Option String := match other with | some (FuncSpec.name s) => some s | _ => none
    match s?.bind (fun s => alistGet env.selfAttrs s) with
    | some c => Except.ok c
    | none =>
      match s?.bind (fun s => alistGet env.objAttrs s) with
      | some c => Except.ok c
      | none =>
        match alistGet env.selfAttrs ("draw_" ++ name) with
        | some c => Except.ok c
        | none =>
          match alistGet env.objAttrs ("draw_" ++ name) with
          | some c => Except.ok c
          | none =>
            match s?.bind env.evalFn with
            | some c => Except.ok c
            | none =>
                Except.error ("Cannot parse the input function " ++ name ++ ":" ++ specStr other)

/-- The `size` value handed to `draw_param` (`None` or an int). -/
def sizeArg (size : Option Nat) : PyArg :=
  match size with
  | none => PyArg.noneV
  | some n => PyArg.natV n

/-- The `eval(f"np.r_[{xx}]")` conversion applied to a string `xx`
argument (line 389), all other `xx` values pass through. -/
def rTransform (env : Env) (x : PyArg) : PyArg :=
  match x with
  | PyArg.lit (Val.str s) => PyArg.arr (env.rEval s)
  | x => x

/-- `draw_param(name, func, size, xx, **kwargs)` (lines 345-399): resolve
the callable, introspect its formal argument names (falling back to
`["size"]`), pass `size` / `func` / `xx` only when declared, invoke it,
and reinterpret the result of an `xx`-declaring callable as an
`(xx, pdf)` pair materialised through `draw_from_pdf`. -/
def draw_param (env : Env) (name : String) (func : Option FuncSpec)
    (size : PyArg) (xx : PyArg) (kwargs : List (String × PyArg)) : Except String Samples :=
  match _parse_input_func env name func with
  | Except.error e => Except.error e
  | Except.ok f =>
    let func_arguments := f.argspec.getD ["size"]
    let prop1 : List (String × PyArg) :=
      if func_arguments.contains "size" then [("size", size)] else []
    let prop2 : List (String × PyArg) :=
      if func_arguments.contains "func" then prop1 ++ [("func", PyArg.funcTok)] else prop1
    let prop3 : List (String × PyArg) :=
      if func_arguments.contains "xx" then
        match xx with
        | PyArg.noneV => prop2
        | x => prop2 ++ [("xx", rTransform env x)]
      else prop2
    match f.run (dictMerge prop3 kwargs) with
    | Except.error e => Except.error e
    | Except.ok res =>
      if func_arguments.contains "xx" then
        match res with
        | Samples.pairPdf xs ps => Except.ok (Samples.one (env.pdfChoice ps xs size))
        | _ => Except.error ("cannot unpack non-pair draw result for " ++ name)
      else Except.ok res

/-- The `parse the @**` loop of `_draw` (lines 445-449): replace every
reference kwarg by the already-materialised column of the working table
(raising `KeyError` when the column is absent) and record whether any
reference was resolved (which forces `size = None`). -/
def resolveRefs (data : Table) : List (String × Val) → Except String (List (String × PyArg) × Bool)
  | [] => Except.ok ([], false)
  | (k, v) :: rest =>
    if isRef v then
      match alistGet data (refNameV v) with
      | some col =>
        match resolveRefs data rest with
        | Except.error e => Except.error e
        | Except.ok (r, _) => Except.ok ((k, PyArg.arr col) :: r, true)
      | none => Except.error ("KeyError: " ++ refNameV v)
    else
      match resolveRefs data rest with
      | Except.error e => Except.error e
      | Except.ok (r, flag) => Except.ok ((k, PyArg.lit v) :: r, flag)

/-- pandas `data[c] = vs`: replace or append the column, rejecting a
value whose length differs from the current row count. -/
def setCol (t : Table) (c : String) (vs : List Val) : Except String Table :=
  match t with
  | [] => Except.ok [(c, vs)]
  | p :: _ =>
      if vs.length = p.2.length then Except.ok (alistSet t c vs)
      else Except.error "Length of values does not match length of index"

/-- `data[output_name] = samples.T` (line 465) for a single alias or a
list of aliases; a shape mismatch raises, as in pandas. -/
def writeCols (t : Table) : OutName → Samples → Except String Table
  | OutName.single s, Samples.one col => setCol t s col
  | OutName.multi ss, Samples.many rows =>
      if ss.length = rows.length then
        (List.zip ss rows).foldlM (fun acc p => setCol acc p.1 p.2) t
      else Except.error "shape mismatch"
  | _, _ => Except.error "shape mismatch"

/-- Line 436: an entry is skipped when `limit_to_entries` is given and
the entry NAME (the document key) is not in it. -/
def limitAllows (limit : Option (List String)) (n : String) : Bool :=
  match limit with
  | none => true
  | some l => l.contains n

/-- `np.asarray` of the value returned by `draw_param`: a tuple becomes a
two-row array. -/
def asArray (s : Samples) : Samples :=
  match s with
  | Samples.pairPdf a b => Samples.many [a, b]
  | s => s

/-- The draw loop of `_draw` (lines 435-465), threading the working table
and the invocation log. -/
def _draw_loop (env : Env) (size : Option Nat) (limit : Option (List String)) :
    Model → Table → List String → Except String (Table × List String)
  | [], data, log => Except.ok (data, log)
  | (param_name, param_model) :: rest, data, log =>
    if limitAllows limit param_name then
      match resolveRefs data (param_model.kwargs.getD []) with
      | Except.error e => Except.error e
      | Except.ok (inprop, hasRef) =>
        let params : List (String × PyArg) :=
          [("size", if hasRef then PyArg.noneV else sizeArg size)]
        let prop := dictMerge params inprop
        let sizeP := (alistGet prop "size").getD PyArg.noneV
        let xxP := (alistGet prop "xx").getD PyArg.noneV
        let kw := prop.filter (fun p => !(p.1 == "size" || p.1 == "xx" || p.1 == "func"))
        match draw_param env param_name param_model.func sizeP xxP kw with
        | Except.error e => Except.error e
        | Except.ok s0 =>
          match writeCols data (outName param_name param_model) (asArray s0) with
          | Except.error e => Except.error e
          | Except.ok data2 => _draw_loop env size limit rest data2 (log ++ [param_name])
    else _draw_loop env size limit rest data log

/-- `_draw(model, size, limit_to_entries, data)` (lines 418-467): the
`size == 0` short-circuit returns the empty table of exploded output
labels without touching any callable; otherwise the draw loop runs over
a copy of `data` (or a fresh empty table). -/
def _draw (env : Env) (model : Model) (size : Option Nat) (limit : Option (List String))
    (data : Option Table) : Except String DrawOut :=
  if size = some 0 then
    Except.ok (DrawOut.emptyTab ((model.map (fun p => size0cols p.1 p.2)).flatten))
  else
    match _draw_loop env size limit model (data.getD []) [] with
    | Except.error e => Except.error e
    | Except.ok (t, log) => Except.ok (DrawOut.tab t log)

/-- `draw(size, limit_to_entries, data, **kwargs)` (lines 317-343):
fetch an overridden snapshot from `get_model` and run `_draw` on it. -/
def draw (env : Env) (model : Model) (size : Option Nat) (limit : Option (List String))
    (data : Option Table) (kwargs : List (String × List (String × Val))) :
    Except String DrawOut :=
  match get_model model [] kwargs with
  | Except.ok m => _draw env m size limit data
  | Except.error e => Except.error e

/-- `draw` as a method: it draws on a snapshot, the stored document is
returned untouched. -/
def ModelDAG.drawM (dag : ModelDAG) (env : Env) (size : Option Nat)
    (limit : Option (List String)) (data : Option Table)
    (kwargs : List (String × List (String × Val))) :
    Except String DrawOut × ModelDAG :=
  (draw env dag.model size limit data kwargs, dag)

/-- `redraw_from(name, data, incl_name, size)` (lines 271-314). A single
name draws with its forward closure as `limit_to_entries`; several names
first collect their forward closures excluding themselves, reject the
request when any requested name lies in the collected closures, and
otherwise draw with the deduplicated union (plus the names themselves
when `incl_name`). -/
def redraw_from (env : Env) (m : Model) (names : List String) (data : Table)
    (incl_name : Bool) (size : Option Nat) : Except String DrawOut :=
  if 1 < names.length then
    let limit1 := npUnique ((names.map (fun n => get_forward_entries m [n] false)).flatten)
    if names.any (fun n => limit1.contains n) then
      Except.error "At least on of the input name have at least one other given as forward entry. This is not supported by this method."
    else
      let limit := if incl_name then limit1 ++ names else limit1
      draw env m size (some limit) (some data) []
  else
    let limit := get_forward_entries m names incl_name
    draw env m size (some limit) (some data) []

/-- A dependency-graph path of length `k ≥ 1` along the given edge list
(`.1` to `.2`, repeatedly). -/
inductive ReachN (edges : List (String × String)) : Nat → String → String → Prop
  | single {a b : String} (h : (a, b) ∈ edges) : ReachN edges 1 a b
  | cons {a b x : String} {k : Nat} (h : (a, b) ∈ edges) (t : ReachN edges k b x) :
      ReachN edges (k + 1) a x

/-- Documents in which every entry stores its samples under its own name
(no alias, or an alias equal to the name). -/
def noAlias (m : Model) : Prop :=
  ∀ p ∈ m, outName p.1 p.2 = OutName.single p.1

/-- A benign sampling callable declaring only `size` and always returning
the single-column sample `[7]`. -/
def cConst : Callable :=
  { argspec := some ["size"], run := fun _ => Except.ok (Samples.one [Val.int 7]) }

/-- An ambient runtime with empty attribute tables, failing `eval`, and
trivial numpy oracles. -/
def env0 : Env :=
  { selfAttrs := [], objAttrs := [], evalFn := fun _ => none,
    rEval := fun _ => [], pdfChoice := fun _ _ _ => [] }

/-- Document with one entry `a` whose `func` is the string `"f"`. -/
def c1model : Model := [("a", { func := some (FuncSpec.name "f") })]

/-- Entry drawn by `cConst` and stored under the alias `x`. -/
def c2entry : Entry :=
  { func := some (FuncSpec.callable cConst), as_ := some (AliasField.one "x") }

def c2model : Model := [("a", c2entry)]

/-- Two-entry document without aliases, `b` referencing `a`. -/
def wm2 : Model :=
  [("a", { func := some (FuncSpec.callable cConst) }),
   ("b", { func := some (FuncSpec.callable cConst),
           kwargs := some [("loc", Val.str "@a")] })]

/-- Entry with an explicit `"as": None`. -/
def c3entry : Entry :=
  { func := some (FuncSpec.callable cConst), kwargs := some [("low", Val.int 0)],
    as_ := some AliasField.noneA }

def c3model : Model := [("a", c3entry)]

/-- Entry named `A` aliased to `z`. -/
def c5entry : Entry :=
  { func := some (FuncSpec.callable cConst), kwargs := some [("low", Val.int 0)],
    as_ := some (AliasField.one "z") }

def c5model : Model := [("A", c5entry)]

def c5data : Table := [("z", [Val.int 5])]

/-- Alias-free two-entry document used to exercise the frame property. -/
def wm5 : Model :=
  [("a", { func := some (FuncSpec.callable cConst) }),
   ("b", { func := some (FuncSpec.callable cConst),
           kwargs := some [("loc", Val.str "@a")] })]

def wdata5 : Table := [("c", [Val.int 1])]

/-- The table `redraw_from` produces from `wm5` and `wdata5`. -/
def wt5 : Table := [("c", [Val.int 1]), ("a", [Val.int 7]), ("b", [Val.int 7])]

/-- A runtime whose instance attribute table binds the name `f`. -/
def envW : Env :=
  { selfAttrs := [("f", cConst)], objAttrs := [], evalFn := fun _ => none,
    rEval := fun _ => [], pdfChoice := fun _ _ _ => [] }

/-- Document for the multi-name redraw check: `b` depends on `a`. -/
def wm7 : Model :=
  [("a", { func := some (FuncSpec.callable cConst) }),
   ("b", { func := some (FuncSpec.callable cConst),
           kwargs := some [("loc", Val.str "@a")] })]

def wdata7 : Table := [("a", [Val.int 2]), ("b", [Val.int 3])]

/-- Engine state with one entry `a` carrying one kwarg. -/
def wdag8 : ModelDAG := { model := [("a", { kwargs := some [("low", Val.int 0)] })] }

def wov8 : List (String × List (String × Val)) := [("a", [("low", Val.int 1)])]

/-- The stored document after committing `wov8`. -/
def wmerged8 : Model := [("a", { kwargs := some [("low", Val.int 1)] })]

/-- Rank function witnessing acyclicity of `wm5` / `wm7`. -/
def rank9 (s : String) : Nat := if s = "b" then 1 else 0

def wov10 : List (String × List (String × Val)) := [("zz", [("low", Val.int 1)])]

theorem alistGet_alistSet_self {α : Type} (l : List (String × α)) (k : String) (v : α) :
    alistGet (alistSet l k v) k = some v := by
  induction l with
  | nil => simp [alistSet, alistGet]
  | cons p rest ih =>
    by_cases hp : p.1 = k
    · simp [alistSet, hp, alistGet]
    · simp [alistSet, hp, alistGet, ih]

theorem alistGet_alistSet_ne {α : Type} (l : List (String × α)) (k k' : String) (v : α)
    (h : k' ≠ k) : alistGet (alistSet l k v) k' = alistGet l k' := by
  have h' : ¬ k = k' := fun hh => h hh.symm
  induction l with
  | nil => simp [alistSet, alistGet, h']
  | cons p rest ih =>
    obtain ⟨pk, pv⟩ := p
    by_cases hp : pk = k
    · subst hp
      simp [alistSet, alistGet, h']
    · by_cases hp' : pk = k'
      · simp [alistSet, hp, alistGet, hp', h]
      · simp [alistSet, hp, alistGet, hp', ih]

theorem alistGet_alistSet_isSome {α : Type} (l : List (String × α)) (k k' : String) (v : α)
    (hk : (alistGet l k).isSome) :
    (alistGet (alistSet l k v) k').isSome = (alistGet l k').isSome := by
  by_cases h : k' = k
  · subst h
    simp [alistGet_alistSet_self, hk]
  · simp [alistGet_alistSet_ne l k k' v h]

theorem pysplit_ne_nil (sep : Char) (cs : List Char) : pysplit sep cs ≠ [] := by
  cases cs with
  | nil => simp [pysplit]
  | cons c rest =>
    simp only [pysplit]
    split <;> simp

theorem takeWhile_append_all {α : Type} (p : α → Bool) (A B : List α)
    (h : ∀ x ∈ A, p x = true) : (A ++ B).takeWhile p = A ++ B.takeWhile p := by
  induction A with
  | nil => simp
  | cons a A ih =>
    have ha : p a = true := h a (by simp)
    simp only [List.cons_append, List.takeWhile_cons, ha]
    simp [ih (fun x hx => h x (by simp [hx]))]

theorem takeWhile_append_stop {α : Type} (p : α → Bool) (A B : List α)
    (h : ∃ x ∈ A, p x = false) : (A ++ B).takeWhile p = A.takeWhile p := by
  induction A with
  | nil =>
    obtain ⟨x, hx, _⟩ := h
    cases hx
  | cons a A ih =>
    by_cases ha : p a = true
    · have h' : ∃ x ∈ A, p x = false := by
        obtain ⟨x, hx, hpx⟩ := h
        rcases List.mem_cons.1 hx with rfl | hxA
        · rw [ha] at hpx; cases hpx
        · exact ⟨x, hxA, hpx⟩
      simp [List.takeWhile_cons, ha, ih h']
    · have ha' : p a = false := by
        cases hpa : p a
        · rfl
        · exact absurd hpa ha
      simp [List.takeWhile_cons, ha']

theorem takeWhile_append_single_false {α : Type} (p : α → Bool) (A : List α) (c : α)
    (hc : p c = false) : (A ++ [c]).takeWhile p = A.takeWhile p := by
  by_cases h : ∀ x ∈ A, p x = true
  · rw [takeWhile_append_all p A [c] h]
    have : A.takeWhile p = A := List.takeWhile_eq_self_iff.2 h
    simp [List.takeWhile_cons, hc, this]
  · push_neg at h
    obtain ⟨x, hx, hpx⟩ := h
    exact takeWhile_append_stop p A [c] ⟨x, hx, by simp [hpx]⟩

theorem pyHead_pysplit (sep : Char) (cs : List Char) :
    pyHead (pysplit sep cs) = cs.takeWhile (fun c => c ≠ sep) := by
  induction cs with
  | nil => rfl
  | cons c rest ih =>
    by_cases h : c = sep
    · subst h
      simp [pysplit, pyHead, List.takeWhile_cons]
    · simp only [pysplit, if_neg h, pyHead, List.headD_cons, List.takeWhile_cons]
      simp only [pyHead, List.headD_eq_head?_getD] at ih ⊢
      simp [h, ih, decide_not]

theorem getLastD_of_ne_nil {α : Type} (l : List α) (a b : α) (h : l ≠ []) :
    l.getLastD a = l.getLastD b := by
  cases l with
  | nil => exact absurd rfl h
  | cons x xs => rw [List.getLastD_cons, List.getLastD_cons]

theorem pysplit_of_not_mem (sep : Char) (cs : List Char) (h : sep ∉ cs) :
    pysplit sep cs = [cs] := by
  induction cs with
  | nil => rfl
  | cons c rest ih =>
    have hc : ¬ c = sep := fun hh => h (by simp [hh])
    have hr : sep ∉ rest := fun hh => h (by simp [hh])
    simp [pysplit, hc, ih hr]

theorem length_pysplit (sep : Char) (cs : List Char) :
    (pysplit sep cs).length = cs.count sep + 1 := by
  induction cs with
  | nil => rfl
  | cons c rest ih =>
    by_cases h : c = sep
    · subst h
      simp [pysplit, List.count_cons, ih]
    · have hne := pysplit_ne_nil sep rest
      simp only [pysplit, if_neg h, List.length_cons]
      rw [List.length_tail]
      have hpos : 0 < (pysplit sep rest).length := List.length_pos.2 hne
      have hcount : (c :: rest).count sep = rest.count sep := by
        simp [List.count_cons, h]
      omega

theorem pyLast_pysplit (sep : Char) (cs : List Char) :
    pyLast (pysplit sep cs) = (cs.reverse.takeWhile (fun c => c ≠ sep)).reverse := by
  induction cs with
  | nil => rfl
  | cons c rest ih =>
    by_cases h : c = sep
    · subst h
      have lhs : pyLast (pysplit c (c :: rest)) = pyLast (pysplit c rest) := by
        have hsp : pysplit c (c :: rest) = [] :: pysplit c rest := by
          simp [pysplit]
        rw [hsp]
        simp only [pyLast, List.getLastD_cons]
      rw [lhs, ih, List.reverse_cons,
        takeWhile_append_single_false (fun x => decide (x ≠ c)) rest.reverse c (by simp)]
    · by_cases hmem : sep ∈ rest
      · have hlen : 2 ≤ (pysplit sep rest).length := by
          have := length_pysplit sep rest
          have : 1 ≤ rest.count sep := List.count_pos_iff.2 hmem
          omega
        obtain ⟨t0, ts, hts⟩ : ∃ t0 ts, pysplit sep rest = t0 :: ts := by
          cases hsp : pysplit sep rest with
          | nil => exact absurd hsp (pysplit_ne_nil sep rest)
          | cons a b => exact ⟨a, b, rfl⟩
        have hts_ne : ts ≠ [] := by
          intro hh
          rw [hts, hh] at hlen
          simp at hlen
        have lhs : pyLast (pysplit sep (c :: rest)) = pyLast (pysplit sep rest) := by
          simp only [pysplit, if_neg h, hts, List.headD_cons, List.tail_cons, pyLast,
            List.getLastD_cons]
          exact getLastD_of_ne_nil _ _ _ hts_ne
        rw [lhs, ih]
        have hstop : ∃ x ∈ rest.reverse, (fun y => decide (y ≠ sep)) x = false := by
          exact ⟨sep, by simp [hmem], by simp⟩
        rw [List.reverse_cons,
          takeWhile_append_stop (fun y => decide (y ≠ sep)) rest.reverse [c] hstop]
      · have hsingle := pysplit_of_not_mem sep rest hmem
        have lhs : pyLast (pysplit sep (c :: rest)) = c :: rest := by
          simp [pysplit, if_neg h, hsingle, pyLast]
        rw [lhs]
        have hall : ∀ x ∈ rest.reverse, (fun y => decide (y ≠ sep)) x = true := by
          intro x hx
          simp only [decide_eq_true_iff]
          intro hh
          subst hh
          exact hmem (List.mem_reverse.1 hx)
        rw [List.reverse_cons,
          takeWhile_append_all (fun y => decide (y ≠ sep)) rest.reverse [c] hall]
        simp [h]

theorem refName_eq_specRefName (s : String) : refName s = specRefName s := by
  unfold refName specRefName
  rw [pyLast_pysplit, pyHead_pysplit]

theorem mem_sinsert (x a : String) (l : List String) :
    x ∈ sinsert a l ↔ x = a ∨ x ∈ l := by
  induction l with
  | nil => simp [sinsert]
  | cons b bs ih =>
    by_cases hab : a ≤ b
    · simp [sinsert, hab]
    · simp [sinsert, hab, ih]
      tauto

theorem mem_ssort (x : String) (l : List String) : x ∈ ssort l ↔ x ∈ l := by
  induction l with
  | nil => simp [ssort]
  | cons a rest ih => simp [ssort, mem_sinsert, ih]

theorem mem_dedupAdj (x : String) (l : List String) : x ∈ dedupAdj l ↔ x ∈ l := by
  induction l using dedupAdj.induct with
  | case1 => simp [dedupAdj]
  | case2 a => simp [dedupAdj]
  | case3 a r ih =>
    simp [dedupAdj, ih]
  | case4 a b r hab ih =>
    simp [dedupAdj, hab, ih]

theorem mem_npUnique (x : String) (l : List String) : x ∈ npUnique l ↔ x ∈ l := by
  simp [npUnique, mem_dedupAdj, mem_ssort]

theorem mem_closure_loop_of_mem_acc (edges : List (String × String)) (fuel : Nat)
    (acc f : List String) (x : String) (h : x ∈ acc) :
    x ∈ closure_loop edges fuel acc f := by
  induction fuel generalizing acc f with
  | zero => simpa [closure_loop] using h
  | succ n ih =>
    by_cases he : f.isEmpty
    · simpa [closure_loop, he] using h
    · simp only [closure_loop, he, if_false, Bool.false_eq_true]
      exact ih (acc ++ f) (frontier_step edges f) (by simp [h])

theorem mem_closure_loop_of_mem_frontier (edges : List (String × String)) (fuel : Nat)
    (acc f : List String) (x : String) (hx : x ∈ f) :
    x ∈ closure_loop edges (fuel + 1) acc f := by
  have he : f.isEmpty = false := by
    cases f
    · cases hx
    · rfl
  simp only [closure_loop, he, Bool.false_eq_true, if_false]
  exact mem_closure_loop_of_mem_acc edges fuel (acc ++ f) (frontier_step edges f) x (by simp [hx])

theorem mem_frontier_step (edges : List (String × String)) (f : List String)
    (a b : String) (ha : a ∈ f) (hab : (a, b) ∈ edges) :
    b ∈ frontier_step edges f := by
  simp only [frontier_step, List.mem_map, List.mem_filter]
  exact ⟨(a, b), ⟨hab, by simpa using ha⟩, rfl⟩

theorem closure_loop_complete (edges : List (String × String)) (k : Nat) (a x : String)
    (h : ReachN edges k a x) :
    ∀ fuel acc f, a ∈ f → k < fuel → x ∈ closure_loop edges fuel acc f := by
  induction h with
  | single hab =>
    intro fuel acc f haf hk
    match fuel, hk with
    | n + 2, _ =>
      have he : f.isEmpty = false := by
        cases f
        · cases haf
        · rfl
      simp only [closure_loop, he, Bool.false_eq_true, if_false]
      exact mem_closure_loop_of_mem_frontier edges n (acc ++ f) (frontier_step edges f) _
        (mem_frontier_step edges f _ _ haf hab)
  | cons hab t ih =>
    intro fuel acc f haf hk
    match fuel, hk with
    | n + 1, _ =>
      have he : f.isEmpty = false := by
        cases f
        · cases haf
        · rfl
      simp only [closure_loop, he, Bool.false_eq_true, if_false]
      refine ih n (acc ++ f) (frontier_step edges f) ?_ (by omega)
      exact mem_frontier_step edges f _ _ haf hab

theorem reachN_rank_le (edges : List (String × String)) (rank : String → Nat)
    (hr : ∀ e ∈ edges, rank e.1 < rank e.2) (k : Nat) (a x : String)
    (h : ReachN edges k a x) : rank a + k ≤ rank x := by
  induction h with
  | single hab => have := hr _ hab; simp at this; omega
  | cons hab t ih => have := hr _ hab; simp at this; omega

theorem reachN_last_edge (edges : List (String × String)) (k : Nat) (a x : String)
    (h : ReachN edges k a x) : ∃ y, (y, x) ∈ edges := by
  induction h with
  | single hab => exact ⟨_, hab⟩
  | cons hab t ih => exact ih

theorem reachN_snoc (edges : List (String × String)) (k : Nat) (a b c : String)
    (h : ReachN edges k a b) (hbc : (b, c) ∈ edges) : ReachN edges (k + 1) a c := by
  induction h with
  | single hab => exact ReachN.cons hab (ReachN.single hbc)
  | cons hab t ih => exact ReachN.cons hab (ih hbc)

theorem closure_loop_sound (edges : List (String × String)) (P : String → Prop)
    (hstep : ∀ y z, P y → (y, z) ∈ edges → P z) :
    ∀ fuel acc f, (∀ y ∈ acc, P y) → (∀ y ∈ f, P y) →
      ∀ x ∈ closure_loop edges fuel acc f, P x := by
  intro fuel
  induction fuel with
  | zero =>
    intro acc f hacc hf x hx
    exact hacc x (by simpa [closure_loop] using hx)
  | succ n ih =>
    intro acc f hacc hf x hx
    by_cases he : f.isEmpty
    · simp only [closure_loop, he, if_true] at hx
      exact hacc x hx
    · simp only [closure_loop, he, Bool.false_eq_true, if_false] at hx
      refine ih (acc ++ f) (frontier_step edges f) ?_ ?_ x hx
      · intro y hy
        rcases List.mem_append.1 hy with h1 | h2
        · exact hacc y h1
        · exact hf y h2
      · intro y hy
        simp only [frontier_step, List.mem_map, List.mem_filter] at hy
        obtain ⟨⟨u, v⟩, ⟨hmem, hcont⟩, rfl⟩ := hy
        exact hstep u v (hf u (by simpa using hcont)) hmem

theorem mem_entry_inputof_iff (m : Model) (a b : String) :
    (a, b) ∈ entry_inputof m ↔ (b, a) ∈ depPairs m := by
  simp only [entry_inputof, List.mem_map]
  constructor
  · rintro ⟨⟨u, v⟩, hm, heq⟩
    simp only [Prod.swap_prod_mk, Prod.mk.injEq] at heq
    obtain ⟨rfl, rfl⟩ := heq
    exact hm
  · intro hm
    exact ⟨(b, a), hm, rfl⟩

theorem length_entry_inputof (m : Model) :
    (entry_inputof m).length = (depPairs m).length := by
  simp [entry_inputof]

theorem closure_from_start (edges : List (String × String)) (fuel : Nat)
    (init names : List String) (k : Nat) (a x : String)
    (h : ReachN edges k a x) (ha : a ∈ names) (hk : k < fuel) :
    x ∈ closure_loop edges (fuel + 1) init (frontier_step edges names) := by
  cases h with
  | single hab =>
    exact mem_closure_loop_of_mem_frontier edges fuel init _ x
      (mem_frontier_step edges names a x ha hab)
  | cons hab t =>
    refine closure_loop_complete edges _ _ x t (fuel + 1) init (frontier_step edges names)
      (mem_frontier_step edges names _ _ ha hab) (by omega)

theorem get_model_fold_err (σ0 : Model) :
    ∀ (ov : List (String × List (String × Val))) (acc : Model),
      (∀ k, (alistGet acc k).isSome = (alistGet σ0 k).isSome) →
      (∃ p ∈ ov, alistGet σ0 p.1 = none) →
      ∃ e, List.foldlM get_model_step acc ov = Except.error e := by
  intro ov
  induction ov with
  | nil =>
    intro acc hdom h
    obtain ⟨p, hp, _⟩ := h
    cases hp
  | cons p rest ih =>
    intro acc hdom h
    cases hget : alistGet acc p.1 with
    | none =>
      refine ⟨"KeyError: " ++ p.1, ?_⟩
      simp only [List.foldlM, get_model_step, hget]
      rfl
    | some e0 =>
      have hdom' : ∀ k,
          (alistGet (alistSet acc p.1
            { e0 with kwargs := some (dictMerge (e0.kwargs.getD []) p.2) }) k).isSome =
          (alistGet σ0 k).isSome := by
        intro k
        rw [alistGet_alistSet_isSome _ _ _ _ (by simp [hget])]
        exact hdom k
      have hrest : ∃ q ∈ rest, alistGet σ0 q.1 = none := by
        obtain ⟨q, hq, hqn⟩ := h
        rcases List.mem_cons.1 hq with rfl | hq'
        · exfalso
          have hd := hdom q.1
          rw [hget, hqn] at hd
          simp at hd
        · exact ⟨q, hq', hqn⟩
      obtain ⟨e, he⟩ := ih _ hdom' hrest
      refine ⟨e, ?_⟩
      simp only [List.foldlM, get_model_step, hget]
      exact he

theorem get_model_err_of_missing (σ : Model) (funcs : List (String × FuncSpec))
    (ov : List (String × List (String × Val)))
    (h : ∃ p ∈ ov, alistGet σ p.1 = none) :
    ∃ e, get_model σ funcs ov = Except.error e :=
  get_model_fold_err σ ov σ (fun _ => rfl) h

theorem alistGet_setCol_ne (t : Table) (cn c : String) (vs : List Val) (t' : Table)
    (h : setCol t cn vs = Except.ok t') (hne : c ≠ cn) : alistGet t' c = alistGet t c := by
  cases t with
  | nil =>
    simp only [setCol, Except.ok.injEq] at h
    subst h
    have hne' : ¬ cn = c := fun hh => hne hh.symm
    simp [alistGet, hne']
  | cons p rest =>
    simp only [setCol] at h
    split at h
    · simp only [Except.ok.injEq] at h
      subst h
      exact alistGet_alistSet_ne _ _ _ _ hne
    · cases h

theorem alistGet_writeCols_single_ne (t : Table) (pn c : String) (s : Samples) (t' : Table)
    (h : writeCols t (OutName.single pn) s = Except.ok t') (hne : c ≠ pn) :
    alistGet t' c = alistGet t c := by
  cases s with
  | one col => exact alistGet_setCol_ne t pn c col t' h hne
  | many rows => simp [writeCols] at h
  | pairPdf a b => simp [writeCols] at h

theorem _draw_loop_log (env : Env) (size : Option Nat) (limit : Option (List String)) :
    ∀ (model : Model) (t0 : Table) (log0 : List String) (t : Table) (log : List String),
      _draw_loop env size limit model t0 log0 = Except.ok (t, log) →
      log = log0 ++ (model.map Prod.fst).filter (fun n => limitAllows limit n) := by
  intro model
  induction model with
  | nil =>
    intro t0 log0 t log h
    simp only [_draw_loop, Except.ok.injEq, Prod.mk.injEq] at h
    simp [h.2.symm]
  | cons p rest ih =>
    intro t0 log0 t log h
    obtain ⟨pn, pm⟩ := p
    by_cases hallow : limitAllows limit pn
    · simp only [_draw_loop, hallow, if_true] at h
      split at h
      · cases h
      · split at h
        · cases h
        · split at h
          · cases h
          · have := ih _ _ _ _ h
            simp only [List.map_cons, List.filter_cons, hallow, if_true, this]
            simp
    · simp only [_draw_loop, hallow, if_false] at h
      have := ih _ _ _ _ h
      simp only [List.map_cons, List.filter_cons, hallow, this]
      simp

theorem _draw_loop_frame (env : Env) (size : Option Nat) (L : List String) :
    ∀ (model : Model) (t0 : Table) (log0 : List String) (t : Table) (log : List String),
      (∀ p ∈ model, outName p.1 p.2 = OutName.single p.1) →
      _draw_loop env size (some L) model t0 log0 = Except.ok (t, log) →
      ∀ c, c ∉ L → alistGet t c = alistGet t0 c := by
  intro model
  induction model with
  | nil =>
    intro t0 log0 t log hA h c hc
    simp only [_draw_loop, Except.ok.injEq, Prod.mk.injEq] at h
    rw [← h.1]
  | cons p rest ih =>
    intro t0 log0 t log hA h c hc
    obtain ⟨pn, pm⟩ := p
    by_cases hallow : limitAllows (some L) pn
    · have hpnL : pn ∈ L := by
        simpa [limitAllows] using hallow
      have hcnepn : c ≠ pn := fun hh => hc (hh ▸ hpnL)
      have hpn_out : outName pn pm = OutName.single pn := hA (pn, pm) (by simp)
      simp only [_draw_loop, hallow, if_true] at h
      split at h
      · cases h
      · split at h
        · cases h
        · split at h
          · cases h
          · rename_i data2 hw
            rw [hpn_out] at hw
            have h1 : alistGet data2 c = alistGet t0 c :=
              alistGet_writeCols_single_ne _ _ _ _ _ hw hcnepn
            have h2 := ih _ _ _ _ (fun q hq => hA q (by simp [hq])) h c hc
            rw [h2, h1]
    · simp only [_draw_loop, hallow, if_false] at h
      exact ih _ _ _ _ (fun q hq => hA q (by simp [hq])) h c hc

/-- C1: evaluating `get_model` at the failing input. The body of
`get_model` never reads its `funcs` parameter, so requesting the
replacement `funcs = {a: "g"}` on a document whose entry `a` has
`func = "f"` returns the document unchanged: the entry's `func` field is
still the original `"f"` specification. The docstring of `get_model`
(lines 123-127) promises the replacement. -/
theorem get_model_ignores_funcs_c1 :
    get_model c1model [("a", FuncSpec.name "g")] [] = Except.ok c1model ∧
    (alistGet c1model "a").map Entry.func = some (some (FuncSpec.name "f")) :=
  ⟨rfl, rfl⟩

/-- C3: evaluating the `size == 0` short-circuit at the failing input.
The call returns the empty table without invoking any sampling callable
(the returned value carries an empty invocation log by construction),
but an entry declared with `"as": None` contributes the Python `None`
column label instead of its own name, although the draw loop itself
(lines 462-464) and the exploded document both map that alias to the
entry name `a`. -/
theorem draw_size0_as_none_c3 :
    draw env0 c3model (some 0) none none [] =
      Except.ok (DrawOut.emptyTab [Option.none]) ∧
    outName "a" c3entry = OutName.single "a" ∧
    outNamesDf "a" c3entry = ["a"] :=
  ⟨rfl, rfl, rfl⟩

/-- C4 counterexample: on the reference string `"@mu\tsig"` the code
extracts the name `"mu\tsig"`: the tab character, although a whitespace
character, does not terminate the referenced name, refuting the claim
that the name is terminated by the first whitespace character. -/
theorem refname_tab_cex_c4 :
    refName "@mu\tsig" = "mu\tsig" ∧ ("mu\tsig" : String) ≠ "mu" := by
  exact ⟨rfl, by decide⟩

/-- C4 amended: a kwargs value is treated as a dependency reference iff
it is a string containing `@`; the referenced name is the text after the
LAST `@` up to the first SPACE character (U+0020, not an arbitrary
whitespace character); every non-string value is a literal. -/
theorem ref_parse_c4 :
    (∀ v : Val, isRef v = true ↔ ∃ s, v = Val.str s ∧ '@' ∈ s.toList) ∧
    (∀ s : String, refName s = specRefName s) ∧
    (∀ z : Int, isRef (Val.int z) = false) := by
  refine ⟨?_, refName_eq_specRefName, fun z => rfl⟩
  intro v
  cases v with
  | str s => simp [isRef]
  | int z => simp [isRef]

/-- C4 witness: the reference `"loc = @a b"` is recognised and parsed by
the characterised grammar. -/
theorem ref_parse_c4_witness :
    isRef (Val.str "loc = @a b") = true ∧
    refName "loc = @a b" = specRefName "loc = @a b" :=
  ⟨(ref_parse_c4.1 (Val.str "loc = @a b")).2 ⟨"loc = @a b", rfl, by decide⟩,
   ref_parse_c4.2.1 "loc = @a b"⟩

/-- C2 counterexample: entry `a` is aliased to output name `x`; with
`limit_to_entries = ["x"]` - a set containing the entry's output name -
the entry is nevertheless skipped (empty invocation log, empty table),
because the loop filters on the entry name, never the alias. -/
theorem draw_skip_cex_c2 :
    _draw env0 c2model none (some ["x"]) none = Except.ok (DrawOut.tab [] []) ∧
    outNamesDf "a" c2entry = ["x"] :=
  ⟨rfl, rfl⟩

/-- C2 amended: with a non-None `limit_to_entries`, entries are iterated
in document order and an entry is evaluated exactly when its ENTRY NAME
(the document key) is in the list; output names and aliases are not
consulted. The invocation log of a successful draw is precisely the
document-ordered filter of the entry names. -/
theorem draw_skip_log_c2 (env : Env) (m : Model) (size : Option Nat) (l : List String)
    (data : Option Table) (t : Table) (log : List String)
    (h : _draw env m size (some l) data = Except.ok (DrawOut.tab t log)) :
    log = (m.map Prod.fst).filter (fun n => l.contains n) := by
  unfold _draw at h
  split at h
  · simp at h
  · split at h
    · cases h
    · rename_i pr heq
      simp only [Except.ok.injEq, DrawOut.tab.injEq] at h
      obtain ⟨h1, h2⟩ := h
      subst h1
      subst h2
      have hl := _draw_loop_log env size (some l) m _ [] _ _ heq
      simpa [limitAllows] using hl

/-- C2 witness: drawing `wm2` with `limit_to_entries = ["a"]` invokes
exactly the entry named `a`. -/
theorem draw_skip_log_c2_witness :
    (["a"] : List String) =
      (wm2.map Prod.fst).filter (fun n => (["a"] : List String).contains n) :=
  draw_skip_log_c2 env0 wm2 none ["a"] none [("a", [Val.int 7])] ["a"] (by rfl)

/-- C5 counterexample: the single entry `A` is aliased to `z`, so
`forward_closure(A, incl_name=True)` is `["A"]` and the column `z` lies
outside it, yet `redraw_from("A", data)` overwrites `z` (from `[5]` to
`[7]`): a column outside the closure is not left unchanged. -/
theorem redraw_frame_cex_c5 :
    redraw_from env0 c5model ["A"] c5data true none =
      Except.ok (DrawOut.tab [("z", [Val.int 7])] ["A"]) ∧
    get_forward_entries c5model ["A"] true = ["A"] ∧
    alistGet c5data "z" = some [Val.int 5] :=
  ⟨rfl, rfl, rfl⟩

/-- C5 amended: for documents in which every entry stores its output
under its own entry name (alias absent, `None`, or equal to the name),
`redraw_from(A, data)` leaves every column outside
`forward_closure(A, incl_name=True)` with exactly the value it has in
`data`, and only columns inside that closure are recomputed. -/
theorem redraw_from_frame_c5 (env : Env) (m : Model) (A : String) (data : Table)
    (size : Option Nat) (t : Table) (log : List String)
    (hA : noAlias m)
    (h : redraw_from env m [A] data true size = Except.ok (DrawOut.tab t log)) :
    ∀ c, c ∉ get_forward_entries m [A] true → alistGet t c = alistGet data c := by
  intro c hc
  unfold redraw_from at h
  rw [if_neg (by simp)] at h
  have h' : _draw env m size (some (get_forward_entries m [A] true)) (some data) =
      Except.ok (DrawOut.tab t log) := h
  unfold _draw at h'
  split at h'
  · simp at h'
  · split at h'
    · cases h'
    · rename_i pr heq
      simp only [Except.ok.injEq, DrawOut.tab.injEq] at h'
      obtain ⟨h1, h2⟩ := h'
      subst h1
      subst h2
      exact _draw_loop_frame env size (get_forward_entries m [A] true) m data [] _ _ hA heq c hc

/-- C5 witness: redrawing `wm5` from `a` recomputes `a` and `b` but the
unrelated column `c` keeps its value from `wdata5`. -/
theorem redraw_from_frame_c5_witness : alistGet wt5 "c" = alistGet wdata5 "c" :=
  redraw_from_frame_c5 env0 wm5 "a" wdata5 none wt5 ["a", "b"]
    (by intro p hp; simp [wm5] at hp; rcases hp with rfl | rfl <;> rfl)
    (by rfl) "c" (by decide)

/-- C6: the resolution precedence of `_parse_input_func`. A callable is
used as-is; a string bound on the engine wins over the owner object;
both win over the `draw_<name>` convention on the engine, then on the
owner; `eval` of the string is the last resort; and a `ValueError`
naming the entry and the specification is raised exactly when none of
the six apply (`eval` of a missing `func` always fails). -/
theorem parse_precedence_c6 (env : Env) (name : String) :
    (∀ c, _parse_input_func env name (some (FuncSpec.callable c)) = Except.ok c) ∧
    (∀ s c, alistGet env.selfAttrs s = some c →
      _parse_input_func env name (some (FuncSpec.name s)) = Except.ok c) ∧
    (∀ s c, alistGet env.selfAttrs s = none → alistGet env.objAttrs s = some c →
      _parse_input_func env name (some (FuncSpec.name s)) = Except.ok c) ∧
    (∀ s c, alistGet env.selfAttrs s = none → alistGet env.objAttrs s = none →
      alistGet env.selfAttrs ("draw_" ++ name) = some c →
      _parse_input_func env name (some (FuncSpec.name s)) = Except.ok c) ∧
    (∀ c, alistGet env.selfAttrs ("draw_" ++ name) = some c →
      _parse_input_func env name none = Except.ok c) ∧
    (∀ s c, alistGet env.selfAttrs s = none → alistGet env.objAttrs s = none →
      alistGet env.selfAttrs ("draw_" ++ name) = none →
      alistGet env.objAttrs ("draw_" ++ name) = some c →
      _parse_input_func env name (some (FuncSpec.name s)) = Except.ok c) ∧
    (∀ c, alistGet env.selfAttrs ("draw_" ++ name) = none →
      alistGet env.objAttrs ("draw_" ++ name) = some c →
      _parse_input_func env name none = Except.ok c) ∧
    (∀ s c, alistGet env.selfAttrs s = none → alistGet env.objAttrs s = none →
      alistGet env.selfAttrs ("draw_" ++ name) = none →
      alistGet env.objAttrs ("draw_" ++ name) = none → env.evalFn s = some c →
      _parse_input_func env name (some (FuncSpec.name s)) = Except.ok c) ∧
    (∀ s, alistGet env.selfAttrs s = none → alistGet env.objAttrs s = none →
      alistGet env.selfAttrs ("draw_" ++ name) = none →
      alistGet env.objAttrs ("draw_" ++ name) = none → env.evalFn s = none →
      _parse_input_func env name (some (FuncSpec.name s)) =
        Except.error ("Cannot parse the input function " ++ name ++ ":" ++ s)) ∧
    (alistGet env.selfAttrs ("draw_" ++ name) = none →
      alistGet env.objAttrs ("draw_" ++ name) = none →
      _parse_input_func env name none =
        Except.error ("Cannot parse the input function " ++ name ++ ":" ++ "None")) := by
  refine ⟨fun c => rfl, ?_, ?_, ?_, ?_, ?_, ?_, ?_, ?_, ?_⟩
  · intro s c h1
    simp [_parse_input_func, h1]
  · intro s c h1 h2
    simp [_parse_input_func, h1, h2]
  · intro s c h1 h2 h3
    simp [_parse_input_func, h1, h2, h3]
  · intro c h3
    simp [_parse_input_func, h3]
  · intro s c h1 h2 h3 h4
    simp [_parse_input_func, h1, h2, h3, h4]
  · intro c h3 h4
    simp [_parse_input_func, h3, h4]
  · intro s c h1 h2 h3 h4 h5
    simp [_parse_input_func, h1, h2, h3, h4, h5]
  · intro s h1 h2 h3 h4 h5
    simp [_parse_input_func, specStr, h1, h2, h3, h4, h5]
  · intro h3 h4
    simp [_parse_input_func, specStr, h3, h4]

/-- C6 witness: the string specification `f` resolves to the attribute
bound on the engine instance. -/
theorem parse_precedence_c6_witness :
    _parse_input_func envW "x" (some (FuncSpec.name "f")) = Except.ok cConst :=
  (parse_precedence_c6 envW "x").2.1 "f" cConst (by rfl)

theorem entry_inputof_rank (m : Model) (rank : String → Nat)
    (h1 : ∀ e ∈ depPairs m, rank e.2 < rank e.1) :
    ∀ e ∈ entry_inputof m, rank e.1 < rank e.2 := by
  intro e he
  obtain ⟨a, b⟩ := e
  exact h1 (b, a) ((mem_entry_inputof_iff m a b).1 he)

theorem get_forward_entries_sound (m : Model) (n x : String)
    (hx : x ∈ get_forward_entries m [n] false) :
    ∃ k, 1 ≤ k ∧ ReachN (entry_inputof m) k n x := by
  simp only [get_forward_entries, Bool.false_eq_true, if_false] at hx
  refine closure_loop_sound (entry_inputof m)
    (fun y => ∃ k, 1 ≤ k ∧ ReachN (entry_inputof m) k n y) ?_ _ _ _ ?_ ?_ x hx
  · rintro y z ⟨k, hk, hr⟩ he
    exact ⟨k + 1, by omega, reachN_snoc _ _ _ _ _ hr he⟩
  · intro y hy
    cases hy
  · intro y hy
    simp only [frontier_step, List.mem_map, List.mem_filter] at hy
    obtain ⟨⟨u, v⟩, ⟨hmem, hcont⟩, rfl⟩ := hy
    have hu : u = n := by simpa using hcont
    subst hu
    exact ⟨1, le_refl 1, ReachN.single hmem⟩

theorem not_mem_own_forward (m : Model) (rank : String → Nat)
    (h1 : ∀ e ∈ depPairs m, rank e.2 < rank e.1) (n : String) :
    n ∉ get_forward_entries m [n] false := by
  intro hmem
  obtain ⟨k, hk1, hr⟩ := get_forward_entries_sound m n n hmem
  have := reachN_rank_le _ rank (entry_inputof_rank m rank h1) k n n hr
  omega

/-- C7: `redraw_from` on several names. If any requested name lies in
another requested name's forward closure the call raises the
unsupported-simultaneous-redraw `ValueError` and returns no table (the
error is produced before `draw` is reached, so no sampling callable is
invoked); otherwise - on an acyclic document, witnessed by a rank
function decreasing along dependencies - it draws with the sorted
deduplicated union of the forward closures, with the requested names
appended back when `incl_name` is true. -/
theorem redraw_from_multi_c7 (env : Env) (m : Model) (names : List String)
    (data : Table) (incl : Bool) (size : Option Nat) (hlen : 1 < names.length) :
    ((∃ n1 ∈ names, ∃ n2 ∈ names, n1 ∈ get_forward_entries m [n2] false) →
      redraw_from env m names data incl size =
        Except.error "At least on of the input name have at least one other given as forward entry. This is not supported by this method.") ∧
    (∀ rank : String → Nat,
      (∀ e ∈ depPairs m, rank e.2 < rank e.1) →
      (∀ n1 ∈ names, ∀ n2 ∈ names, n1 ≠ n2 → n1 ∉ get_forward_entries m [n2] false) →
      redraw_from env m names data incl size =
        draw env m size
          (some (if incl then
              npUnique ((names.map (fun n => get_forward_entries m [n] false)).flatten) ++ names
            else
              npUnique ((names.map (fun n => get_forward_entries m [n] false)).flatten)))
          (some data) []) := by
  constructor
  · rintro ⟨n1, hn1, n2, hn2, hmem⟩
    have hflat : n1 ∈ (names.map (fun n => get_forward_entries m [n] false)).flatten := by
      simp only [List.mem_flatten, List.mem_map]
      exact ⟨get_forward_entries m [n2] false, ⟨n2, hn2, rfl⟩, hmem⟩
    have hany : names.any (fun n =>
        (npUnique ((names.map (fun n => get_forward_entries m [n] false)).flatten)).contains n)
          = true := by
      rw [List.any_eq_true]
      refine ⟨n1, hn1, ?_⟩
      simpa [mem_npUnique] using hflat
    simp only [redraw_from, if_pos hlen, hany, if_true]
  · intro rank h1 hnot
    have hany : names.any (fun n =>
        (npUnique ((names.map (fun n => get_forward_entries m [n] false)).flatten)).contains n)
          = false := by
      rw [List.any_eq_false]
      intro n1 hn1
      simp only [Bool.not_eq_true]
      rw [Bool.eq_false_iff]
      intro hcont
      have hn1u : n1 ∈ npUnique ((names.map (fun n => get_forward_entries m [n] false)).flatten) := by
        simpa using hcont
      rw [mem_npUnique] at hn1u
      simp only [List.mem_flatten, List.mem_map] at hn1u
      obtain ⟨cl, ⟨n2, hn2, rfl⟩, hincl⟩ := hn1u
      by_cases hne : n1 = n2
      · subst hne
        exact not_mem_own_forward m rank h1 n1 hincl
      · exact hnot n1 hn1 n2 hn2 hne hincl
    simp only [redraw_from, if_pos hlen, hany, Bool.false_eq_true, if_false]

/-- C7 witness: requesting `["a", "b"]` on `wm7`, where `b` is in the
forward closure of `a`, is rejected with the dedicated error. -/
theorem redraw_from_multi_c7_witness :
    redraw_from env0 wm7 ["a", "b"] wdata7 true none =
      Except.error "At least on of the input name have at least one other given as forward entry. This is not supported by this method." :=
  (redraw_from_multi_c7 env0 wm7 ["a", "b"] wdata7 true none (by decide)).1
    ⟨"b", by decide, "a", by decide, by decide⟩

/-- C8: neither `get_model` (with any `funcs` and override arguments)
nor `draw` changes the stored model document - both operate on a deep
copy and hand the state back untouched - while `change_model` is exactly
the operation that commits the `get_model` merge into the stored
document. -/
theorem no_mutation_c8 (dag : ModelDAG) (env : Env) (size : Option Nat)
    (limit : Option (List String)) (data : Option Table)
    (funcs : List (String × FuncSpec)) (ov : List (String × List (String × Val))) :
    (dag.get_modelM funcs ov).2 = dag ∧
    (dag.drawM env size limit data ov).2 = dag ∧
    (∀ m', get_model dag.model [] ov = Except.ok m' →
      (dag.change_model ov).2 = { model := m' }) := by
  refine ⟨rfl, rfl, ?_⟩
  intro m' hm
  simp [ModelDAG.change_model, hm]

/-- C8 witness: on concrete state `wdag8`, `get_modelM` leaves the state
alone and `change_model` commits the merged document. -/
theorem no_mutation_c8_witness :
    (wdag8.get_modelM [] wov8).2 = wdag8 ∧
    (wdag8.change_model wov8).2 = { model := wmerged8 } :=
  ⟨(no_mutation_c8 wdag8 env0 none none none [] wov8).1,
   (no_mutation_c8 wdag8 env0 none none none [] wov8).2.2 wmerged8 (by rfl)⟩

theorem reachN_first_edge (edges : List (String × String)) (k : Nat) (a x : String)
    (h : ReachN edges k a x) : ∃ b, (a, b) ∈ edges := by
  cases h with
  | single hab => exact ⟨_, hab⟩
  | cons hab t => exact ⟨_, hab⟩

/-- C9: on an acyclic document - witnessed by a rank function that
decreases along dependency pairs and is bounded by the number of pairs -
`get_forward_entries(A, incl_input=True)` contains `A` and every output
reachable from `A` along `entry_inputof` edges, and
`get_backward_entries(A, incl_input=True)` contains `A` and every name
`A` transitively references along dependency pairs; both are computed by
the iterative frontier expansion, which empties within the provided
fuel. -/
theorem closures_contain_reachable_c9 (m : Model) (A : String) (rank : String → Nat)
    (h1 : ∀ e ∈ depPairs m, rank e.2 < rank e.1)
    (h2 : ∀ e ∈ depPairs m, rank e.1 ≤ (depPairs m).length) :
    A ∈ get_forward_entries m [A] true ∧
    A ∈ get_backward_entries m [A] true ∧
    (∀ k X, ReachN (entry_inputof m) k A X → X ∈ get_forward_entries m [A] true) ∧
    (∀ k X, ReachN (depPairs m) k A X → X ∈ get_backward_entries m [A] true) := by
  refine ⟨?_, ?_, ?_, ?_⟩
  · exact mem_closure_loop_of_mem_acc _ _ _ _ _ (by simp)
  · exact mem_closure_loop_of_mem_acc _ _ _ _ _ (by simp)
  · intro k X h
    have hk : k ≤ (depPairs m).length := by
      have hle := reachN_rank_le _ rank (entry_inputof_rank m rank h1) k A X h
      obtain ⟨y, hy⟩ := reachN_last_edge _ k A X h
      have hXdep : (X, y) ∈ depPairs m := (mem_entry_inputof_iff m y X).1 hy
      have := h2 _ hXdep
      simp only at this
      omega
    simp only [get_forward_entries, if_pos rfl]
    have hlen := length_entry_inputof m
    have : (entry_inputof m).length + 2 = ((entry_inputof m).length + 1) + 1 := by omega
    rw [this]
    exact closure_from_start (entry_inputof m) ((entry_inputof m).length + 1)
      [A] [A] k A X h (by simp) (by omega)
  · intro k X h
    have hmu : ∀ e ∈ depPairs m,
        ((depPairs m).length + 1 - rank e.1) < ((depPairs m).length + 1 - rank e.2) := by
      intro e he
      have ha := h1 e he
      have hb := h2 e he
      omega
    have hle := reachN_rank_le (depPairs m)
      (fun s => (depPairs m).length + 1 - rank s) hmu k A X h
    have hle2 : (depPairs m).length + 1 - rank A + k ≤ (depPairs m).length + 1 - rank X := hle
    obtain ⟨b0, hb0⟩ := reachN_first_edge (depPairs m) k A X h
    have hA_bound : rank A ≤ (depPairs m).length := h2 (A, b0) hb0
    have hk : k < (depPairs m).length + 1 := by omega
    simp only [get_backward_entries, if_pos rfl]
    have : (depPairs m).length + 2 = ((depPairs m).length + 1) + 1 := by omega
    rw [this]
    exact closure_from_start (depPairs m) ((depPairs m).length + 1)
      [A] [A] k A X h (by simp) (by omega)

/-- C9 witness: in the document `wm5` (edge `a -> b`), `b` is in the
forward closure of `a` and `a` is in the backward closure of `b`. -/
theorem closures_contain_reachable_c9_witness :
    "b" ∈ get_forward_entries wm5 ["a"] true ∧
    "a" ∈ get_backward_entries wm5 ["b"] true :=
  ⟨(closures_contain_reachable_c9 wm5 "a" rank9 (by decide) (by decide)).2.2.1 1 "b"
      (ReachN.single (by decide)),
   (closures_contain_reachable_c9 wm5 "b" rank9 (by decide) (by decide)).2.2.2 1 "a"
      (ReachN.single (by decide))⟩

/-- C10: `change_model` with an override key naming no entry raises the
`KeyError` from `get_model` and leaves the stored document exactly as it
was - the merge happens on a deep copy and is committed only by the
final assignment, which the exception prevents. -/
theorem change_model_missing_key_c10 (dag : ModelDAG)
    (ov : List (String × List (String × Val)))
    (h : ∃ p ∈ ov, alistGet dag.model p.1 = none) :
    (∃ e, (dag.change_model ov).1 = Except.error e) ∧ (dag.change_model ov).2 = dag := by
  obtain ⟨e, he⟩ := get_model_err_of_missing dag.model [] ov h
  refine ⟨⟨e, ?_⟩, ?_⟩
  · simp [ModelDAG.change_model, he]
  · simp [ModelDAG.change_model, he]

/-- C10 witness: overriding the non-existent entry `zz` on `wdag8`
errors and keeps the state. -/
theorem change_model_missing_key_c10_witness :
    (∃ e, (wdag8.change_model wov10).1 = Except.error e) ∧
    (wdag8.change_model wov10).2 = wdag8 :=
  change_model_missing_key_c10 wdag8 wov10
    ⟨("zz", [("low", Val.int 1)]), by simp [wov10], rfl⟩
